import Mathlib

set_option maxRecDepth 8000

/-!  Verification of the pykakuro solver library (kakuro.py) against its
specification.  The Python source is shallowly embedded: board tokens become
an inductive type, the mutable per-cell digit sets become an explicitly
threaded store, and Python exceptions become `Except` errors.  -/

deriving instance DecidableEq for Except

namespace Pykakuro

/-- A board token, mirroring the puzzle data of kakuro.py: an integer
(0 = black filler, 1 = unknown entry, other integers = entry digits) or a
clue, a Python pair (across, down) of integers. -/
inductive Token where
  | int (n : ℤ)
  | clue (a d : ℤ)
deriving DecidableEq, Inhabited

/-- Python truthiness of a token: nonzero integers are truthy, and a clue
(a nonempty tuple) is always truthy. -/
def Token.truthy : Token → Bool
  | .int n => n ≠ 0
  | .clue _ _ => true

/-- rows_from_list from kakuro.py: the slices list[z:z+x_size] for z in
range(0, len(list)-x_size+1, x_size). -/
def rowsFromList (l : List α) (x : ℕ) : List (List α) :=
  (List.range' 0 (if l.length + 1 ≤ x then 0 else (l.length - x) / x + 1) x).map
    (fun z => (l.drop z).take x)

/-- The Python slice l[start::step] for step ≥ 1: the elements at indices
start, start+step, start+2*step, ... -/
def sliceStep [Inhabited α] (l : List α) (start step : ℕ) : List α :=
  ((List.range l.length).filter (fun i => start ≤ i && (i - start) % step == 0)).map
    (fun i => l.getD i default)

/-- cols_from_list from kakuro.py: the slices list[z::x_size] for z in
range(x_size). -/
def colsFromList [Inhabited α] (l : List α) (x : ℕ) : List (List α) :=
  (List.range x).map (fun z => sliceStep l z x)

/-- Errors raised while scanning a row or column for constraints:
clueWithoutEntry models ConstraintWithoutEntryCellException, and outOfBounds
models the IndexError that record.pop() raises on an empty record (a clue
with a nonzero component sitting at the end of a row or column). -/
inductive ScanErr where
  | clueWithoutEntry
  | outOfBounds
deriving DecidableEq

/-- Selects the component of a clue named by row_or_col in
_process_row_or_col: ACROSS (false) reads the first component, DOWN (true)
the second. -/
def clueComp (down : Bool) (a d : ℤ) : ℤ := if down then d else a

/-- The inner while loop of _process_row_or_col: pop cells while they are
entry squares; the first non-entry cell is un-popped.  Returns the collected
cells and the remaining record. -/
def collectCells (isEntry : α → Bool) : List α → List α × List α
  | [] => ([], [])
  | c :: rest =>
      if isEntry c then
        let p := collectCells isEntry rest
        (c :: p.1, p.2)
      else ([], c :: rest)

theorem collectCells_rest_length (isEntry : α → Bool) (l : List α) :
    (collectCells isEntry l).2.length ≤ l.length := by
  induction l with
  | nil => simp [collectCells]
  | cons c rest ih =>
      by_cases h : isEntry c = true
      · simpa [collectCells, h] using Nat.le_succ_of_le ih
      · simp [collectCells, h]

/-- The recursion of _process_row_or_col, spelt with a fuel argument so
that the kernel can evaluate it; every call consumes at least one record
cell per fuel unit, so any fuel beyond the record length is exact. -/
def processRowOrColAux (getTuple : α → Option (ℤ × ℤ)) (isEntry : α → Bool)
    (down : Bool) : ℕ → List α → Except ScanErr (List (ℤ × List α))
  | 0, _ => .ok []
  | _ + 1, [] => .ok []
  | fuel + 1, c :: rest =>
    match getTuple c with
    | none => processRowOrColAux getTuple isEntry down fuel rest
    | some (a, d) =>
      if clueComp down a d = 0 then processRowOrColAux getTuple isEntry down fuel rest
      else
        match rest with
        | [] => .error .outOfBounds
        | c2 :: rest2 =>
          if isEntry c2 then
            let p := collectCells isEntry rest2
            match processRowOrColAux getTuple isEntry down fuel p.2 with
            | .ok others => .ok ((clueComp down a d, c2 :: p.1) :: others)
            | .error e => .error e
          else .error .clueWithoutEntry

/-- _process_row_or_col from kakuro.py, generic in the predicates the three
call sites supply: getTuple recognises constraint cells (Python tuples) and
returns their two components, isEntry is the caller-provided
is_entry_square.  Python reverses the record and pops from the end, which is
front-to-back processing of the original list. -/
def processRowOrCol (getTuple : α → Option (ℤ × ℤ)) (isEntry : α → Bool)
    (down : Bool) (l : List α) : Except ScanErr (List (ℤ × List α)) :=
  processRowOrColAux getTuple isEntry down (l.length + 1) l

/-- Scans a list of rows (or columns) in order, extending the constraint
list with each scan's runs; the first raised error aborts the whole scan,
as in Python. -/
def scanLists (getTuple : α → Option (ℤ × ℤ)) (isEntry : α → Bool)
    (down : Bool) : List (List α) → Except ScanErr (List (ℤ × List α))
  | [] => .ok []
  | r :: rs => do
    let cs ← processRowOrCol getTuple isEntry down r
    let rest ← scanLists getTuple isEntry down rs
    return cs ++ rest

/-- _generate_constraints from kakuro.py: all rows are scanned with the
ACROSS component, then all columns with the DOWN component. -/
def generateConstraints [Inhabited α] (getTuple : α → Option (ℤ × ℤ))
    (isEntry : α → Bool) (input : List α) (x : ℕ) :
    Except ScanErr (List (ℤ × List α)) := do
  let rowRuns ← scanLists getTuple isEntry false (rowsFromList input x)
  let colRuns ← scanLists getTuple isEntry true (colsFromList input x)
  return rowRuns ++ colRuns

/-- Python range(a, b) over the integers, as a list. -/
def rangeZ (a b : ℤ) : List ℤ := (List.range (b - a).toNat).map (fun t => a + t)

/-- get_vals from kakuro.py: all strictly-increasing n-tuples drawn from
range(1, sum_val) whose sum is sum_val and whose members all lie below 10.
itertools.combinations enumerates k-subsets of the increasing range, here
realised as the k-sublists of that range; the enumeration order (which no
caller of the Lean development depends on) is not preserved. -/
def getVals (sumVal : ℤ) (n : ℕ) : List (List ℤ) :=
  ((rangeZ 1 sumVal).sublistsLen n).filter
    (fun x => x.sum == sumVal && x.all (fun y => decide (y < 10)))

/-- get_set from kakuro.py, modelled without the optional on-disk
.set_cache (the cache, when present, stores exactly these values and the
repository ships none). -/
def getSet (sumVal : ℤ) (n : ℕ) : Finset ℤ :=
  if n = 1 then
    if sumVal < 10 then {sumVal} else ∅
  else (getVals sumVal n).flatten.toFinset

/-- Python zip(*T) for T a list of tuples: the j-th output groups the j-th
components, for j below the minimum tuple length; zip of no tuples is the
empty list. -/
def zipStar (T : List (List ℤ)) : List (List ℤ) :=
  (List.range ((T.map List.length).min?.getD 0)).map
    (fun j => T.map (fun t => t.getD j 0))

/-- The members of a finite set of integers in ascending order: insertion
sort lifted over the permutation quotient, so that the kernel can evaluate
it on concrete sets. -/
def sortedMembers (s : Finset ℤ) : List ℤ :=
  Quotient.liftOn s.val (List.insertionSort (· ≤ ·)) (fun a b h =>
    List.eq_of_perm_of_sorted
      ((List.perm_insertionSort _ a).trans (h.trans (List.perm_insertionSort _ b).symm))
      (List.sorted_insertionSort _ a) (List.sorted_insertionSort _ b))

/-- itertools.product(*sets) over the member lists of the given finsets, as
a list of tuples; the solver only ever converts the outcome back into sets,
so the enumeration order is irrelevant. -/
def domProd (sets : List (Finset ℤ)) : List (List ℤ) :=
  (sets.map sortedMembers).sections

/-- The filtered enumeration inside _remove_invalid_sums: the tuples of the
product of the domains whose sum matches and whose members are distinct
(the distinctness test len(seq) == len(set(seq)) is applied whether or not
the puzzle is exclusive). -/
def validTuples (sets : List (Finset ℤ)) (sumVal : ℤ) : List (List ℤ) :=
  (domProd sets).filter
    (fun seq => seq.sum == sumVal && seq.dedup.length == seq.length)

/-- _remove_invalid_sums from kakuro.py, acting on the list of member-cell
domains of one run in pass i.  The Python float budget 1.7**i + 500 is
modelled as the rational (17/10)^i + 500 (exact for every comparison the
development evaluates).  product(lst) in the source is reduce(mul), applied
only to the nonempty domain list of a run, so List.prod agrees with it. -/
def removeInvalidSums (sets : List (Finset ℤ)) (sumVal : ℤ) (i : ℕ) :
    List (Finset ℤ) :=
  let size := (sets.map Finset.card).prod
  if 1 < size ∧ ((size : ℚ) < (17/10 : ℚ)^i + 500) then
    let newSets := zipStar (validTuples sets sumVal)
    (List.zipWith (fun _old new => new.toFinset) sets newSets) ++
      sets.drop newSets.length
  else sets

/-- Recognises Python tuple tokens and returns their components, the
type(cell) == type(()) test of _process_row_or_col. -/
def tokenTuple : Token → Option (ℤ × ℤ)
  | .int _ => none
  | .clue a d => some (a, d)

/-- is_entry_square as defined inside check_solution: a nonzero integer
(tuples fail the type(cell) == type(1) test). -/
def entryForCheckSolution : Token → Bool
  | .int n => n ≠ 0
  | .clue _ _ => false

/-- is_entry_square as defined inside check_puzzle: cell != 0, so any
nonzero integer and also every clue (a nonempty Python tuple is != 0). -/
def entryForCheckPuzzle : Token → Bool
  | .int n => n ≠ 0
  | .clue _ _ => true

/-- The integer value of a token, as summed by check_solution (its runs only
ever contain integer tokens). -/
def tokVal : Token → ℤ
  | .int n => n
  | .clue _ _ => 0

/-- The error taxonomy of check_solution.  The constructors mirror the
SolutionInvalidException subclasses of kakuro.py; unsolved stands for
SolutionUnsolvedException, and scan for the
ConstraintWithoutEntryCellException (or IndexError) that the constraint scan
inside check_solution can raise. -/
inductive CheckErr where
  | scan (e : ScanErr)
  | invalidSum
  | nonUnique
  | outOfRange
  | unsolved
deriving DecidableEq

/-- The per-puzzle parameters fixed at construction time. -/
structure Params where
  x : ℕ
  minV : ℤ
  maxV : ℤ
  exclusive : Bool
deriving DecidableEq

/-- check_solution from kakuro.py: regenerate the constraints of the given
data and test each run for the right sum, distinct members (only on
exclusive puzzles) and membership in [min_val, max_val], in that order. -/
def checkSolution (p : Params) (data : List Token) : Except CheckErr Unit := do
  let cs ← match generateConstraints tokenTuple entryForCheckSolution data p.x with
           | .ok cs => Except.ok cs
           | .error e => Except.error (CheckErr.scan e)
  let runs := cs.map (fun c => (c.1, c.2.map tokVal))
  if !(runs.all (fun c => c.2.sum == c.1)) then
    throw .invalidSum
  else if p.exclusive && !(runs.all (fun c => c.2.dedup.length == c.2.length)) then
    throw .nonUnique
  else if runs.any (fun c => c.2.any (fun v => decide (p.maxV < v))) then
    throw .outOfRange
  else if runs.any (fun c => c.2.any (fun v => decide (v < p.minV))) then
    throw .outOfRange
  else
    return ()

/-- The error taxonomy of check_puzzle: badLength models
InvalidPuzzleDataLengthException; the scan errors carry the
ConstraintWithoutEntryCellException (or IndexError) raised while the
constraints are generated.  The InvalidPuzzleDataException type test cannot
fire in this embedding because Token covers exactly the integers and pairs
the test accepts.  The final any(len(cells) < 1) guard raises the same
ConstraintWithoutEntryCellException class as the scan, and is mapped to the
same error. -/
inductive PuzzleErr where
  | badLength
  | scan (e : ScanErr)
deriving DecidableEq

/-- check_puzzle from kakuro.py. -/
def checkPuzzle (x : ℕ) (data : List Token) : Except PuzzleErr Unit := do
  if data.length % x ≠ 0 then
    throw .badLength
  else
    match generateConstraints tokenTuple entryForCheckPuzzle data x with
    | .error e => throw (.scan e)
    | .ok cs =>
      if cs.any (fun c => c.2.length < 1) then throw (.scan .clueWithoutEntry)
      else return ()

/-- The token rewrite of unsolve from kakuro.py: every truthy non-tuple
token (a nonzero integer) becomes the unknown marker 1; black squares and
clues are untouched. -/
def unsolveTok : Token → Token
  | .int n => if n ≠ 0 then .int 1 else .int 0
  | .clue a d => .clue a d

/-- The data rewrite performed by unsolve. -/
def unsolveData (d : List Token) : List Token := d.map unsolveTok

/-! ### The solver -/

/-- The dynamic state of one solver Cell: the possibility set .set, whether
that attribute still exists (the brute-force setup deletes it), and the
trial value .test. -/
structure CellSt where
  dom : Finset ℤ
  hasSet : Bool
  test : ℤ
deriving DecidableEq

/-- Cell() from kakuro.py: possibilities 1..9, test value 0. -/
def initCell : CellSt := { dom := Finset.Icc (1 : ℤ) 9, hasSet := true, test := 0 }

/-- The solver cell arena, indexed by board position.  Only positions whose
token is the unknown marker 1 are ever read. -/
abbrev Store := ℕ → CellSt

/-- Overwrites one cell of the arena. -/
def setCell (st : Store) (i : ℕ) (c : CellSt) : Store :=
  fun j => if j = i then c else st j

/-- Rebinds the possibility set of one cell. -/
def setDom (st : Store) (i : ℕ) (s : Finset ℤ) : Store :=
  setCell st i { st i with dom := s }

/-- The solver errors: scan carries constraint-generation failures,
noSolutions is the bare Exception() of _prune_by_count, noValues the
Exception("No values") of the brute-force setup, emptyProduct the TypeError
of reduce(mul, []) when no brute-force cell exists, and alreadySolved the
Exception("Already solved") of _solve. -/
inductive SolveErr where
  | scan (e : ScanErr)
  | noSolutions
  | noValues
  | emptyProduct
  | alreadySolved
deriving DecidableEq

/-- Recognises tuple tokens on the indexed solver board (Cells replace the
token 1, all other tokens stay). -/
def solverTuple : ℕ × Token → Option (ℤ × ℤ) := fun it => tokenTuple it.2

/-- isinstance(cell, Cell) on the indexed solver board: exactly the
positions whose original token is the unknown marker 1 hold a Cell. -/
def solverEntry : ℕ × Token → Bool := fun it => it.2 == Token.int 1

/-- The constraints _next_solution builds: each run keeps its sum and the
arena indices of its member Cells. -/
def solverConstraints (data : List Token) (x : ℕ) :
    Except ScanErr (List (ℤ × List ℕ)) :=
  (generateConstraints solverTuple solverEntry data.enum x).map
    (fun cs => cs.map (fun c => (c.1, c.2.map Prod.fst)))

/-- One constraint of _first_run: intersect every member domain with
union(sum, number of cells). -/
def applyFirstRun (st : Store) (c : ℤ × List ℕ) : Store :=
  let s := getSet c.1 c.2.length
  c.2.foldl (fun acc i => setDom acc i ((acc i).dom ∩ s)) st

/-- _first_run from kakuro.py. -/
def firstRun (cs : List (ℤ × List ℕ)) (st : Store) : Store :=
  cs.foldl applyFirstRun st

/-- Deduplication keeping the first occurrence of each element, the key
order of a Python Counter built by insertion. -/
def firstDedup [DecidableEq β] (l : List β) : List β :=
  l.foldl (fun acc a => if a ∈ acc then acc else acc ++ [a]) []

/-- _prune_by_count from kakuro.py on one run: count how many cells share
each identical possibility set (counts taken over the sets as they stand on
entry); a group of n cells with the same n-element set removes that set
from every cell whose current set differs, and a group larger than its set
witnesses an unsolvable puzzle. -/
def pruneByCount (idxs : List ℕ) (st : Store) : Except SolveErr Store :=
  let doms := idxs.map (fun i => (st i).dom)
  let keys := firstDedup doms
  if keys.length = 1 then .ok st
  else
    keys.foldlM (fun acc src =>
      let count := doms.count src
      if src.card < count then .error .noSolutions
      else if count = src.card then
        .ok (idxs.foldl (fun a i =>
          if (a i).dom ≠ src then setDom a i ((a i).dom \ src) else a) acc)
      else .ok acc) st

/-- One constraint of one propagation pass: _prune_by_count (on exclusive
puzzles) followed by _remove_invalid_sums, whose result is written back to
the member cells positionally. -/
def applyRunPass (exclusive : Bool) (i : ℕ) (st : Store) (c : ℤ × List ℕ) :
    Except SolveErr Store := do
  let st1 ← if exclusive then pruneByCount c.2 st else .ok st
  let newDoms := removeInvalidSums (c.2.map (fun j => (st1 j).dom)) c.1 i
  return (List.zip c.2 newDoms).foldl (fun a p => setDom a p.1 p.2) st1

/-- is_solved from kakuro.py: every cell of every constraint has exactly one
possibility left. -/
def isSolvedCheck (cs : List (ℤ × List ℕ)) (st : Store) : Bool :=
  cs.all (fun c => c.2.all (fun i => (st i).dom.card == 1))

/-- The per-pass refiltering of unsat_constraints: keep a constraint while
some member cell still has more than one possibility. -/
def filterUnsat (unsat : List (ℤ × List ℕ)) (st : Store) : List (ℤ × List ℕ) :=
  unsat.filter (fun c => c.2.any (fun i => 1 < (st i).dom.card))

/-- Outcome of the pass loop: solved within the 99 passes, or exhausted with
the surviving unsat constraints. -/
inductive PassOutcome where
  | solved (st : Store)
  | exhausted (unsat : List (ℤ × List ℕ)) (st : Store)

/-- The constraint-pass loop for i in range(1, 100) of _next_solution:
apply a pass over the unsat constraints, stop as soon as is_solved, and
refilter the unsat list between passes. -/
def passLoop (exclusive : Bool) (cs : List (ℤ × List ℕ)) :
    ℕ → ℕ → List (ℤ × List ℕ) → Store → Except SolveErr PassOutcome
  | 0, _, unsat, st => .ok (.exhausted unsat st)
  | fuel + 1, i, unsat, st => do
    let st ← unsat.foldlM (applyRunPass exclusive i) st
    if isSolvedCheck cs st then .ok (.solved st)
    else passLoop exclusive cs fuel (i + 1) (filterUnsat unsat st) st

/-- set.pop() as the solved path applies it to a copy of a cell set: on the
singleton sets guaranteed by is_solved it returns the unique element (the
model picks the minimum, which CPython small-int sets also yield). -/
def setPop (s : Finset ℤ) : ℤ := (sortedMembers s).headD 0

/-- The Solution data yielded on the constraint-propagation path: every Cell
position publishes the popped member of its set, other tokens pass through. -/
def solvedData (data : List Token) (st : Store) : List Token :=
  data.enum.map (fun it =>
    if it.2 = Token.int 1 then Token.int (setPop (st it.1).dom) else it.2)

/-- The brute-force setup loop of _next_solution: walk the cells of the
surviving unsat constraints; a singleton cell has its test fixed and its set
deleted, a cell with several possibilities joins the brute-force list (kept
in first-visit order), and an empty cell aborts with "No values".  Cells
whose set was already deleted are skipped, as the AttributeError handler
does. -/
def brutePrep (unsat : List (ℤ × List ℕ)) (st : Store) :
    Except SolveErr (Store × List ℕ) :=
  unsat.foldlM (fun acc c =>
    c.2.foldlM (fun a i =>
      let cell := a.1 i
      if cell.hasSet then
        if cell.dom.card = 1 then
          .ok (setCell a.1 i { dom := cell.dom, hasSet := false, test := setPop cell.dom }, a.2)
        else if 1 < cell.dom.card then
          .ok (a.1, if i ∈ a.2 then a.2 else a.2 ++ [i])
        else .error .noValues
      else .ok a) acc) (st, [])

/-- itertools.product over the remaining possibility lists of the
brute-force cells.  CPython enumerates each set in its internal order and
the product in odometer order; the model enumerates each set ascending, and
no claim depends on the order in which assignments are visited. -/
def bruteAssignments (bruteIdx : List ℕ) (st : Store) : List (List ℤ) :=
  (bruteIdx.map (fun i => sortedMembers (st i).dom)).sections

/-- Writes one trial assignment into the test slots of the brute cells. -/
def setTests (st : Store) (idxs : List ℕ) (vals : List ℤ) : Store :=
  (List.zip idxs vals).foldl
    (fun a p => setCell a p.1 { a p.1 with test := p.2 }) st

/-- _are_constraints_satisfied from kakuro.py over the unsat constraints:
every sum of test values matches, and on exclusive puzzles every run's test
values are distinct. -/
def constraintsSatisfied (exclusive : Bool) (unsat : List (ℤ × List ℕ))
    (st : Store) : Bool :=
  unsat.all (fun c => (c.2.map (fun i => (st i).test)).sum == c.1) &&
    (!exclusive || unsat.all (fun c =>
      let vals := c.2.map (fun i => (st i).test)
      vals.dedup.length == vals.length))

/-- The Solution data yielded on the brute-force path: Cell positions
publish their test value, other tokens pass through. -/
def bruteData (data : List Token) (st : Store) : List Token :=
  data.enum.map (fun it =>
    if it.2 = Token.int 1 then Token.int (st it.1).test else it.2)

/-- _next_solution from kakuro.py, collected into the list of all yielded
Solution data: build Cells for the unknown markers, generate and seed the
constraints, run up to 99 propagation passes (yielding the single read-off
solution when they converge), and otherwise brute force the residual cells,
yielding every assignment that satisfies the surviving constraints. -/
def nextSolutions (exclusive : Bool) (data : List Token) (x : ℕ) :
    Except SolveErr (List (List Token)) := do
  let cs ← match solverConstraints data x with
           | .ok cs => Except.ok cs
           | .error e => Except.error (SolveErr.scan e)
  let st0 := firstRun cs (fun _ => initCell)
  match ← passLoop exclusive cs 99 1 cs st0 with
  | .solved st => return [solvedData data st]
  | .exhausted unsat st =>
    let p ← brutePrep unsat st
    if p.2.isEmpty then throw .emptyProduct
    else
      return (bruteAssignments p.2 p.1).filterMap (fun vals =>
        let st2 := setTests p.1 p.2 vals
        if constraintsSatisfied exclusive unsat st2 then some (bruteData data st2)
        else none)

/-- The observable state of a Kakuro instance: the board data, the fixed
parameters, the solutions list and the is_solved flag. -/
structure Puzzle where
  x : ℕ
  data : List Token
  minV : ℤ
  maxV : ℤ
  exclusive : Bool
  solutions : List (List Token)
  isSolvedFlag : Bool
deriving DecidableEq

/-- solve from kakuro.py on the run-to-completion path: _solve refuses an
already-solved puzzle, appends every solution the generator yields, sets
is_solved, and returns True.  The floating-point diagnostics speedup and
difficulty are not modelled. -/
def solveRun (p : Puzzle) : Except SolveErr (Bool × Puzzle) :=
  if p.isSolvedFlag then .error .alreadySolved
  else
    match nextSolutions p.exclusive p.data p.x with
    | .error e => .error e
    | .ok sols =>
        .ok (true, { p with solutions := p.solutions ++ sols, isSolvedFlag := true })

/-- The observable result when the timeout interrupt lands after _solve has
appended the k-th solution but before it finishes: solve catches the
KeyboardInterrupt and, with timeout_exception=False, returns False; the
solutions appended so far remain on the puzzle and is_solved stays False. -/
def solveAborted (p : Puzzle) (k : ℕ) : Bool × Puzzle :=
  match nextSolutions p.exclusive p.data p.x with
  | .ok sols => (false, { p with solutions := p.solutions ++ sols.take k })
  | .error _ => (false, p)

/-! ### The random generator -/

/-- Abstract model of the random module consumed by gen_random: a stream of
naturals, one draw per call.  random.seed replaces the stream by a stream
computed from the seed, so a reseeded generator is a function of the seed
alone; an unseeded call keeps consuming the ambient stream. -/
structure Rng where
  stream : List ℕ
deriving DecidableEq

/-- One raw draw from the stream. -/
def rngNext (r : Rng) : ℕ × Rng := (r.stream.headD 0, ⟨r.stream.tail⟩)

/-- Models the random.random() > 0.6 coin of gen_random. -/
def randGt06 (r : Rng) : Bool × Rng :=
  let p := rngNext r
  (decide (3 ≤ p.1 % 5), p.2)

/-- Models random.randint(lo, hi), a draw from [lo, hi]. -/
def randInt (lo hi : ℤ) (r : Rng) : ℤ × Rng :=
  let p := rngNext r
  (lo + (p.1 % (hi - lo + 1).toNat : ℕ), p.2)

/-- Models random.seed(s): the stream becomes a function of s alone. -/
def seedRng (s : ℤ) : Rng :=
  ⟨(List.range 256).map (fun t => (s.natAbs + 7 * t + 3) % 23)⟩

/-- The row helper of gen_random: a[x_size*n : x_size*(n+1)]. -/
def pyRow (a : List Token) (x n : ℕ) : List Token := (a.drop (x * n)).take x

/-- The col helper of gen_random: a[n : len(a) : x_size]. -/
def pyCol (a : List Token) (x n : ℕ) : List Token := sliceStep a n x

/-- The 20-attempt fill loop of gen_random for one cell: draw a value; on an
exclusive puzzle accept it only when it appears in neither the cell's row
nor its column, otherwise redraw. -/
def tryFill (exclusive : Bool) (minV maxV : ℤ) (x idx : ℕ) :
    ℕ → List Token × Rng → List Token × Rng
  | 0, p => p
  | n + 1, p =>
    let d := randInt minV maxV p.2
    if exclusive then
      if Token.int d.1 ∉ pyRow p.1 x (idx / x) ∧ Token.int d.1 ∉ pyCol p.1 x (idx % x) then
        (p.1.set idx (.int d.1), d.2)
      else tryFill exclusive minV maxV x idx n (p.1, d.2)
    else (p.1.set idx (.int d.1), d.2)

/-- The cell-placement phase of gen_random over a fresh all-zero board. -/
def fillPhase (exclusive : Bool) (minV maxV : ℤ) (x L : ℕ) (r : Rng) :
    List Token × Rng :=
  (List.range L).foldl (fun p idx =>
    let d := randGt06 p.2
    if d.1 then tryFill exclusive minV maxV x idx 20 (p.1, d.2)
    else (p.1, d.2)) (List.replicate L (.int 0), r)

/-- The zeroing of the top row and the left column:
a[0:x_size] = (0,)*x_size and a[0::x_size] = (0,)*y_size. -/
def zeroBorder (a : List Token) (x y : ℕ) : List Token :=
  let a1 := List.replicate x (Token.int 0) ++ a.drop x
  (List.range y).foldl (fun b k => b.set (k * x) (.int 0)) a1

/-- One cell of the across-clue sweep (right to left): accumulate entry
digits, and on a black square with a pending sum write the clue (sum, 0).
The sweep runs before any tuple exists, so the tuple branch is unreachable
and passes through. -/
def acrossStep (p : List Token × ℤ) (i : ℕ) : List Token × ℤ :=
  match p.1.getD i (.int 0) with
  | .int n =>
      if n ≠ 0 then (p.1, p.2 + n)
      else if p.2 ≠ 0 then (p.1.set i (.clue p.2 0), 0) else p
  | .clue _ _ => p

/-- The across sweep of gen_random: every row right to left, top to bottom,
the accumulator carried over row boundaries exactly as the single Python
variable is. -/
def acrossPass (a : List Token) (x y : ℕ) : List Token :=
  ((List.range y).foldl (fun p row =>
    ((List.range x).map (fun t => (row + 1) * x - 1 - t)).foldl acrossStep p)
    (a, 0)).1

/-- One cell of the down-clue sweep (bottom to top): accumulate non-tuple
entry digits; with a pending sum, a black square receives the clue (0, sum)
and an existing across clue has its down component filled in. -/
def downStep (p : List Token × ℤ) (i : ℕ) : List Token × ℤ :=
  match p.1.getD i (.int 0) with
  | .int n =>
      if n ≠ 0 then (p.1, p.2 + n)
      else if p.2 ≠ 0 then (p.1.set i (.clue 0 p.2), 0) else p
  | .clue a _ => if p.2 ≠ 0 then (p.1.set i (.clue a p.2), 0) else p

/-- The down sweep: every column bottom to top, left to right. -/
def downPass (a : List Token) (x y : ℕ) : List Token :=
  ((List.range x).foldl (fun p c =>
    ((List.range y).map (fun t => c + (y - 1 - t) * x)).foldl downStep p)
    (a, 0)).1

/-- gen_random from kakuro.py.  The ambient argument is the state of the
global random module at call time; the Python guard "if seed:" skips the
reseeding both for an absent seed and for the falsy seed 0, in which case
the ambient stream is consumed instead. -/
def genRandom (xSize ySize : ℕ) (isSolvedArg exclusive : Bool)
    (minV maxV : ℤ) (seed : Option ℤ) (ambient : Rng) : Puzzle :=
  let r0 := match seed with
            | some s => if s ≠ 0 then seedRng s else ambient
            | none => ambient
  let L := xSize * ySize
  let f := fillPhase exclusive minV maxV xSize L r0
  let a0 := zeroBorder f.1 xSize ySize
  let a1 := acrossPass a0 xSize ySize
  let a2 := downPass a1 xSize ySize
  { x := xSize, data := if isSolvedArg then a2 else unsolveData a2,
    minV := minV, maxV := maxV, exclusive := exclusive,
    solutions := [], isSolvedFlag := isSolvedArg }

/-! ### Derived operations and spec-side predicates -/

/-- unsolve from kakuro.py at the puzzle level: clears is_solved and
rewrites the data tokens. -/
def unsolvePuzzle (p : Puzzle) : Puzzle :=
  { p with isSolvedFlag := false, data := unsolveData p.data }

/-- The combinations query as the claim reads it: k = 1 yields the single
tuple (sum,) for 1 ≤ sum ≤ 9 and nothing otherwise (the spec's stated edge
case); every other k is the source's get_vals. -/
def specCombinations (sumVal : ℤ) (n : ℕ) : List (List ℤ) :=
  if n = 1 then if 1 ≤ sumVal ∧ sumVal ≤ 9 then [[sumVal]] else []
  else getVals sumVal n

/-- A tuple as the spec words rule R1: drawn from the product of the
current domains, summing to the target, with pairwise-distinct members. -/
def specTuple (sets : List (Finset ℤ)) (sumVal : ℤ) (t : List ℤ) : Prop :=
  t.length = sets.length ∧
  (∀ m, m < sets.length → t.getD m 0 ∈ sets.getD m ∅) ∧
  t.sum = sumVal ∧ t.Nodup

/-- An entry square in the sense of the claims: a nonzero integer token. -/
def entryTok : Token → Bool
  | .int n => n ≠ 0
  | .clue _ _ => false

/-- Whether a line starts with an entry square. -/
def headEntry : List Token → Bool
  | [] => false
  | t :: _ => entryTok t

/-- The claim's condition on one scanned line: some clue whose component in
the scan direction is nonzero is not immediately followed by at least one
entry square (the end of the line counts as no entry). -/
def badClueLine (down : Bool) : List Token → Bool
  | [] => false
  | .clue a d :: rest =>
      (decide (clueComp down a d ≠ 0) && !headEntry rest) || badClueLine down rest
  | .int _ :: rest => badClueLine down rest

/-- Every clue inside the line is immediately preceded by a black square
(a clue at the start of the line has no predecessor and is allowed). -/
def cluesIsolated : List Token → Bool
  | [] => true
  | [_] => true
  | t1 :: t2 :: rest =>
      (match t2 with
       | .clue _ _ => t1 == Token.int 0
       | .int _ => true) && cluesIsolated (t2 :: rest)

/-- No clue whose component in the scan direction is nonzero ends the
line. -/
def noTrailingClue (down : Bool) (l : List Token) : Bool :=
  match l.getLast? with
  | some (.clue a d) => clueComp down a d == 0
  | _ => true

/-- A canonical token of the specified board alphabet: black 0, entry
digits 1..9, clue components 0..45. -/
def canonicalTok : Token → Prop
  | .int n => 0 ≤ n ∧ n ≤ 9
  | .clue a d => 0 ≤ a ∧ a ≤ 45 ∧ 0 ≤ d ∧ d ≤ 45

instance (t : Token) : Decidable (canonicalTok t) := by
  cases t <;> dsimp [canonicalTok] <;> infer_instance

/-! ### Concrete boards used by the counterexamples and witnesses -/

/-- An unsolvable board: the across clue asks 7 of two cells whose down
clues force 2 and 3. -/
def conflictBoard : List Token :=
  [.int 0, .clue 0 2, .clue 0 3, .clue 7 0, .int 1, .int 1]

/-- The puzzle wrapping conflictBoard, fresh from construction. -/
def conflictPuzzle : Puzzle := ⟨3, conflictBoard, 1, 9, true, [], false⟩

/-- The Solution data that solving conflictBoard publishes; its across run
sums to 5 rather than 7. -/
def conflictSolution : List Token :=
  [.int 0, .clue 0 2, .clue 0 3, .clue 7 0, .int 2, .int 3]

/-- A one-entry puzzle whose across and down clues both say 3; the first
propagation pass solves it. -/
def tinyPuzzle : Puzzle :=
  ⟨2, [.int 0, .clue 0 3, .clue 3 0, .int 1], 1, 9, true, [], false⟩

/-- The observable state after tinyPuzzle is solved. -/
def tinySolved : Puzzle :=
  ⟨2, [.int 0, .clue 0 3, .clue 3 0, .int 1], 1, 9, true,
    [[.int 0, .clue 0 3, .clue 3 0, .int 3]], true⟩

/-- A board whose single entry square still holds the unknown marker 1,
sitting under a down clue of 1. -/
def unsolvedOkBoard : List Token := [.int 0, .clue 0 1, .int 0, .int 1]

/-- An 11-wide single-row board whose one run spans 10 entry cells. -/
def longRunBoard : List Token := Token.clue 10 0 :: List.replicate 10 (.int 1)

/-! ## Supporting lemmas -/

theorem mem_sortedMembers (s : Finset ℤ) (v : ℤ) :
    v ∈ sortedMembers s ↔ v ∈ s := by
  rcases s with ⟨m, hnd⟩
  induction m using Quotient.inductionOn with
  | h l =>
      show v ∈ List.insertionSort (· ≤ ·) l ↔ _
      rw [(List.perm_insertionSort (· ≤ ·) l).mem_iff]
      rfl

theorem dedup_length_iff (l : List ℤ) :
    l.dedup.length = l.length ↔ l.Nodup := by
  constructor
  · intro h
    have := (List.dedup_sublist l).eq_of_length h
    rw [← this]
    exact l.nodup_dedup
  · intro h
    rw [List.dedup_eq_self.mpr h]

theorem mem_validTuples (sets : List (Finset ℤ)) (sumVal : ℤ) (t : List ℤ) :
    t ∈ validTuples sets sumVal ↔ specTuple sets sumVal t := by
  unfold validTuples domProd specTuple
  rw [List.mem_filter, List.mem_sections, List.forall₂_iff_get]
  simp only [List.length_map, Bool.and_eq_true, beq_iff_eq]
  constructor
  · rintro ⟨⟨hlen, hget⟩, hsum, hded⟩
    refine ⟨hlen, ?_, hsum, (dedup_length_iff t).mp hded⟩
    intro m hm
    have h1 : m < t.length := by omega
    have := hget m h1 hm
    rw [List.get_eq_getElem, List.get_eq_getElem, List.getElem_map] at this
    rw [mem_sortedMembers] at this
    rw [List.getD_eq_getElem t 0 h1, List.getD_eq_getElem sets ∅ hm]
    exact this
  · rintro ⟨hlen, hmem, hsum, hnd⟩
    refine ⟨⟨hlen, ?_⟩, hsum, (dedup_length_iff t).mpr hnd⟩
    intro m h1 h2
    have hm : m < sets.length := by omega
    have := hmem m hm
    rw [List.getD_eq_getElem t 0 h1, List.getD_eq_getElem sets ∅ hm] at this
    rw [List.get_eq_getElem, List.get_eq_getElem, List.getElem_map]
    rw [mem_sortedMembers]
    exact this

theorem foldl_min_const (k : ℕ) :
    ∀ L : List ℕ, (∀ x ∈ L, x = k) → L.foldl min k = k := by
  intro L
  induction L with
  | nil => intro _; rfl
  | cons a l ih =>
      intro h
      have ha : a = k := h a (List.mem_cons_self a l)
      subst ha
      simp only [List.foldl_cons, min_self]
      exact ih (fun x hx => h x (List.mem_cons_of_mem a hx))

theorem min?_all_eq (L : List ℕ) (k : ℕ) (hne : L ≠ [])
    (h : ∀ x ∈ L, x = k) : L.min? = some k := by
  cases L with
  | nil => exact absurd rfl hne
  | cons a l =>
      have ha : a = k := h a (List.mem_cons_self a l)
      subst ha
      show some (l.foldl min a) = some a
      rw [foldl_min_const a l (fun x hx => h x (List.mem_cons_of_mem a hx))]

theorem zipStar_rect (T : List (List ℤ)) (k : ℕ) (hne : T ≠ [])
    (hk : ∀ t ∈ T, t.length = k) :
    zipStar T = (List.range k).map (fun j => T.map (fun t => t.getD j 0)) := by
  unfold zipStar
  have hmin : (T.map List.length).min? = some k := by
    refine min?_all_eq _ k ?_ ?_
    · simp only [ne_eq, List.map_eq_nil_iff]
      exact hne
    · intro x hx
      rw [List.mem_map] at hx
      obtain ⟨t, ht, rfl⟩ := hx
      exact hk t ht
  rw [hmin]
  rfl

theorem removeInvalidSums_of_no_tuple (sets : List (Finset ℤ)) (sumVal : ℤ)
    (i : ℕ) (h : validTuples sets sumVal = []) :
    removeInvalidSums sets sumVal i = sets := by
  have hz : zipStar (validTuples sets sumVal) = [] := by rw [h]; rfl
  show (if 1 < (sets.map Finset.card).prod ∧
        (((sets.map Finset.card).prod : ℕ) : ℚ) < (17 / 10 : ℚ) ^ i + 500 then
      List.zipWith (fun _old new => new.toFinset) sets (zipStar (validTuples sets sumVal)) ++
        sets.drop (zipStar (validTuples sets sumVal)).length
    else sets) = sets
  rw [hz]
  split <;> simp

theorem removeInvalidSums_getD (sets : List (Finset ℤ)) (sumVal : ℤ) (i : ℕ)
    (h1 : 1 < (sets.map Finset.card).prod)
    (h2 : (((sets.map Finset.card).prod : ℕ) : ℚ) < (17 / 10 : ℚ) ^ i + 500)
    (hne : validTuples sets sumVal ≠ []) (j : ℕ) (hj : j < sets.length) :
    (removeInvalidSums sets sumVal i).getD j ∅ =
      ((validTuples sets sumVal).map (fun t => t.getD j 0)).toFinset := by
  have hk : ∀ t ∈ validTuples sets sumVal, t.length = sets.length :=
    fun t ht => ((mem_validTuples _ _ _).mp ht).1
  show ((if 1 < (sets.map Finset.card).prod ∧
        (((sets.map Finset.card).prod : ℕ) : ℚ) < (17 / 10 : ℚ) ^ i + 500 then
      List.zipWith (fun _old new => new.toFinset) sets (zipStar (validTuples sets sumVal)) ++
        sets.drop (zipStar (validTuples sets sumVal)).length
    else sets)).getD j ∅ =
    ((validTuples sets sumVal).map (fun t => t.getD j 0)).toFinset
  rw [if_pos ⟨h1, h2⟩]
  rw [zipStar_rect _ sets.length hne hk]
  have hlen : ((List.range sets.length).map
      (fun j => (validTuples sets sumVal).map (fun t => t.getD j 0))).length = sets.length := by
    simp
  rw [hlen, List.drop_length, List.append_nil]
  have hjz : j < (List.zipWith (fun _old new => new.toFinset) sets
      ((List.range sets.length).map
        (fun j => (validTuples sets sumVal).map (fun t => t.getD j 0)))).length := by
    rw [List.length_zipWith, hlen]
    omega
  rw [List.getD_eq_getElem _ _ hjz, List.getElem_zipWith]
  rw [List.getElem_map, List.getElem_range]

theorem collectCells_rest_suffix (isEntry : α → Bool) (l : List α) :
    (collectCells isEntry l).2 <:+ l := by
  induction l with
  | nil => simp [collectCells]
  | cons c rest ih =>
      by_cases h : isEntry c = true
      · simp only [collectCells, h, if_true]
        exact ih.trans (List.suffix_cons c rest)
      · simp [collectCells, h]

theorem processRowOrColAux_runs (gt : α → Option (ℤ × ℤ)) (ie : α → Bool)
    (down : Bool) :
    ∀ (fuel : ℕ) (l : List α) (runs : List (ℤ × List α)),
      processRowOrColAux gt ie down fuel l = .ok runs →
      ∀ r ∈ runs, r.2 ≠ [] ∧ r.1 ≠ 0 ∧
        ∃ c ∈ l, ∃ a d, gt c = some (a, d) ∧ r.1 = clueComp down a d := by
  intro fuel
  induction fuel with
  | zero =>
      intro l runs h r hr
      rw [show processRowOrColAux gt ie down 0 l = .ok [] from rfl,
        Except.ok.injEq] at h
      subst h
      exact absurd hr (List.not_mem_nil r)
  | succ fuel ih =>
      intro l runs h r hr
      cases l with
      | nil =>
          rw [show processRowOrColAux gt ie down (fuel + 1) [] = .ok [] from rfl,
            Except.ok.injEq] at h
          subst h
          exact absurd hr (List.not_mem_nil r)
      | cons c rest =>
          rw [processRowOrColAux] at h
          split at h
          · rename_i hgt
            obtain ⟨hne, hnz, c0, hc0, prop⟩ := ih rest runs h r hr
            exact ⟨hne, hnz, c0, List.mem_cons_of_mem c hc0, prop⟩
          · rename_i a d hgt
            split at h
            · rename_i hz
              obtain ⟨hne, hnz, c0, hc0, prop⟩ := ih rest runs h r hr
              exact ⟨hne, hnz, c0, List.mem_cons_of_mem c hc0, prop⟩
            · rename_i hz
              split at h
              · exact Except.noConfusion h
              · rename_i c2 rest2
                split at h
                · rename_i he
                  dsimp only at h
                  split at h
                  · rename_i others hrec
                    rw [Except.ok.injEq] at h
                    subst h
                    rcases List.mem_cons.mp hr with rfl | hr2
                    · exact ⟨by simp, hz, c, List.mem_cons_self c _, a, d, hgt, rfl⟩
                    · obtain ⟨hne, hnz, c0, hc0, prop⟩ := ih _ others hrec r hr2
                      have hc0mem : c0 ∈ c :: c2 :: rest2 := by
                        have hsub := (collectCells_rest_suffix ie rest2).subset hc0
                        exact List.mem_cons_of_mem c (List.mem_cons_of_mem c2 hsub)
                      exact ⟨hne, hnz, c0, hc0mem, prop⟩
                  · exact Except.noConfusion h
                · exact Except.noConfusion h

theorem processRowOrCol_runs (gt : α → Option (ℤ × ℤ)) (ie : α → Bool)
    (down : Bool) (l : List α) (runs : List (ℤ × List α))
    (h : processRowOrCol gt ie down l = .ok runs) :
    ∀ r ∈ runs, r.2 ≠ [] ∧ r.1 ≠ 0 ∧
      ∃ c ∈ l, ∃ a d, gt c = some (a, d) ∧ r.1 = clueComp down a d :=
  processRowOrColAux_runs gt ie down (l.length + 1) l runs h

theorem scanLists_mem (gt : α → Option (ℤ × ℤ)) (ie : α → Bool) (down : Bool) :
    ∀ (ls : List (List α)) (runs : List (ℤ × List α)),
      scanLists gt ie down ls = .ok runs →
      ∀ r ∈ runs, ∃ l ∈ ls, ∃ sub, processRowOrCol gt ie down l = .ok sub ∧ r ∈ sub := by
  intro ls
  induction ls with
  | nil =>
      intro runs h r hr
      rw [show scanLists gt ie down [] = .ok [] from rfl, Except.ok.injEq] at h
      subst h
      exact absurd hr (List.not_mem_nil r)
  | cons l ls ih =>
      intro runs h r hr
      rw [scanLists] at h
      cases hscan : processRowOrCol gt ie down l with
      | error e =>
          rw [hscan] at h
          exact Except.noConfusion h
      | ok sub =>
          rw [hscan] at h
          cases hrest : scanLists gt ie down ls with
          | error e =>
              rw [hrest] at h
              exact Except.noConfusion h
          | ok rest =>
              rw [hrest] at h
              have heq : sub ++ rest = runs := by
                have h2 : (Except.ok (sub ++ rest) : Except ScanErr _) = .ok runs := h
                exact Except.ok.inj h2
              subst heq
              rcases List.mem_append.mp hr with hl | hrr
              · exact ⟨l, List.mem_cons_self l ls, sub, hscan, hl⟩
              · obtain ⟨l2, hl2, sub2, hsub2, hr2⟩ := ih rest hrest r hrr
                exact ⟨l2, List.mem_cons_of_mem l hl2, sub2, hsub2, hr2⟩

theorem mem_of_mem_rowsFromList (l : List α) (x : ℕ) (row : List α)
    (hrow : row ∈ rowsFromList l x) : ∀ t ∈ row, t ∈ l := by
  unfold rowsFromList at hrow
  rw [List.mem_map] at hrow
  obtain ⟨z, _, rfl⟩ := hrow
  intro t ht
  exact ((List.take_sublist _ _).trans (List.drop_sublist _ _)).subset ht

theorem mem_of_mem_sliceStep [Inhabited α] (l : List α) (start step : ℕ) :
    ∀ t ∈ sliceStep l start step, t ∈ l := by
  intro t ht
  unfold sliceStep at ht
  rw [List.mem_map] at ht
  obtain ⟨i, hi, rfl⟩ := ht
  have hilt : i < l.length := by
    have := List.mem_filter.mp hi
    exact List.mem_range.mp this.1
  rw [List.getD_eq_getElem l default hilt]
  exact List.getElem_mem hilt

theorem mem_of_mem_colsFromList [Inhabited α] (l : List α) (x : ℕ)
    (col : List α) (hcol : col ∈ colsFromList l x) : ∀ t ∈ col, t ∈ l := by
  unfold colsFromList at hcol
  rw [List.mem_map] at hcol
  obtain ⟨z, _, rfl⟩ := hcol
  exact mem_of_mem_sliceStep l z x

theorem generateConstraints_runs [Inhabited α] (gt : α → Option (ℤ × ℤ))
    (ie : α → Bool) (input : List α) (x : ℕ) (cs : List (ℤ × List α))
    (h : generateConstraints gt ie input x = .ok cs) :
    ∀ r ∈ cs, r.2 ≠ [] ∧ r.1 ≠ 0 ∧
      ∃ c ∈ input, ∃ a d, gt c = some (a, d) ∧ (r.1 = a ∨ r.1 = d) := by
  unfold generateConstraints at h
  cases hrows : scanLists gt ie false (rowsFromList input x) with
  | error e => rw [hrows] at h; exact Except.noConfusion h
  | ok rowRuns =>
      rw [hrows] at h
      cases hcols : scanLists gt ie true (colsFromList input x) with
      | error e => rw [hcols] at h; exact Except.noConfusion h
      | ok colRuns =>
          rw [hcols] at h
          have heq : rowRuns ++ colRuns = cs := by
            have h2 : (Except.ok (rowRuns ++ colRuns) : Except ScanErr _) = .ok cs := h
            exact Except.ok.inj h2
          subst heq
          intro r hr
          rcases List.mem_append.mp hr with hrow | hcol
          · obtain ⟨line, hline, sub, hsub, hrsub⟩ :=
              scanLists_mem gt ie false _ rowRuns hrows r hrow
            obtain ⟨hne, hnz, c0, hc0, a, d, hgt, hcomp⟩ :=
              processRowOrCol_runs gt ie false line sub hsub r hrsub
            exact ⟨hne, hnz, c0, mem_of_mem_rowsFromList input x line hline c0 hc0,
              a, d, hgt, Or.inl hcomp⟩
          · obtain ⟨line, hline, sub, hsub, hrsub⟩ :=
              scanLists_mem gt ie true _ colRuns hcols r hcol
            obtain ⟨hne, hnz, c0, hc0, a, d, hgt, hcomp⟩ :=
              processRowOrCol_runs gt ie true line sub hsub r hrsub
            exact ⟨hne, hnz, c0, mem_of_mem_colsFromList input x line hline c0 hc0,
              a, d, hgt, Or.inr hcomp⟩

theorem snd_mem_of_mem_enum (l : List α) (p : ℕ × α) (h : p ∈ l.enum) :
    p.2 ∈ l := by
  have hm := List.enum_map_snd l
  rw [← hm]
  exact List.mem_map_of_mem Prod.snd h

theorem foldl_interDom_dom_subset (s : Finset ℤ) (l : List ℕ) :
    ∀ (st : Store) (i : ℕ),
      ((l.foldl (fun acc j => setDom acc j ((acc j).dom ∩ s)) st) i).dom ⊆
        (st i).dom := by
  induction l with
  | nil => intro st i; exact subset_rfl
  | cons j rest ih =>
      intro st i
      simp only [List.foldl_cons]
      refine (ih _ i).trans ?_
      unfold setDom setCell
      by_cases hij : i = j
      · subst hij
        simp only [if_pos rfl]
        exact Finset.inter_subset_left
      · simp [hij]

theorem foldl_interDom_dom_mem (s : Finset ℤ) (l : List ℕ) :
    ∀ (st : Store), ∀ i ∈ l,
      ((l.foldl (fun acc j => setDom acc j ((acc j).dom ∩ s)) st) i).dom ⊆ s := by
  induction l with
  | nil => intro st i hi; exact absurd hi (List.not_mem_nil i)
  | cons j rest ih =>
      intro st i hi
      simp only [List.foldl_cons]
      by_cases hir : i ∈ rest
      · exact ih _ i hir
      · have hij : i = j := by
          rcases List.mem_cons.mp hi with h | h
          · exact h
          · exact absurd h hir
        subst hij
        refine (foldl_interDom_dom_subset s rest _ i).trans ?_
        unfold setDom setCell
        simp only [if_pos rfl]
        exact Finset.inter_subset_right

theorem applyFirstRun_dom_subset (c : ℤ × List ℕ) (st : Store) (i : ℕ) :
    ((applyFirstRun st c) i).dom ⊆ (st i).dom :=
  foldl_interDom_dom_subset (getSet c.1 c.2.length) c.2 st i

theorem applyFirstRun_dom_mem (c : ℤ × List ℕ) (st : Store) :
    ∀ i ∈ c.2, ((applyFirstRun st c) i).dom ⊆ getSet c.1 c.2.length :=
  foldl_interDom_dom_mem (getSet c.1 c.2.length) c.2 st

theorem firstRun_dom_subset (cs : List (ℤ × List ℕ)) :
    ∀ (st : Store) (i : ℕ), ((firstRun cs st) i).dom ⊆ (st i).dom := by
  induction cs with
  | nil => intro st i; exact subset_rfl
  | cons c rest ih =>
      intro st i
      show ((firstRun rest (applyFirstRun st c)) i).dom ⊆ (st i).dom
      exact (ih _ i).trans (applyFirstRun_dom_subset c st i)

theorem firstRun_dom_mem (cs : List (ℤ × List ℕ)) :
    ∀ (st : Store), ∀ c ∈ cs, ∀ i ∈ c.2,
      ((firstRun cs st) i).dom ⊆ getSet c.1 c.2.length := by
  induction cs with
  | nil => intro st c hc; exact absurd hc (List.not_mem_nil c)
  | cons c0 rest ih =>
      intro st c hc i hi
      by_cases hcr : c ∈ rest
      · exact ih _ c hcr i hi
      · have hcc : c = c0 := by
          rcases List.mem_cons.mp hc with h | h
          · exact h
          · exact absurd h hcr
        subst hcc
        show ((firstRun rest (applyFirstRun st c)) i).dom ⊆ _
        exact (firstRun_dom_subset rest _ i).trans
          (applyFirstRun_dom_mem c st i hi)

theorem processAux_nonTuple (gt : α → Option (ℤ × ℤ)) (ie : α → Bool)
    (down : Bool) (fuel : ℕ) (c : α) (rest : List α) (hgt : gt c = none) :
    processRowOrColAux gt ie down (fuel + 1) (c :: rest) =
      processRowOrColAux gt ie down fuel rest := by
  simp only [processRowOrColAux, hgt]

theorem processAux_clue_skip (gt : α → Option (ℤ × ℤ)) (ie : α → Bool)
    (down : Bool) (fuel : ℕ) (c : α) (rest : List α) (a d : ℤ)
    (hgt : gt c = some (a, d)) (hz : clueComp down a d = 0) :
    processRowOrColAux gt ie down (fuel + 1) (c :: rest) =
      processRowOrColAux gt ie down fuel rest := by
  simp only [processRowOrColAux, hgt]
  rw [if_pos hz]

theorem processAux_clue_boundary (gt : α → Option (ℤ × ℤ)) (ie : α → Bool)
    (down : Bool) (fuel : ℕ) (c : α) (a d : ℤ)
    (hgt : gt c = some (a, d)) (hz : clueComp down a d ≠ 0) :
    processRowOrColAux gt ie down (fuel + 1) [c] = .error .outOfBounds := by
  simp only [processRowOrColAux, hgt]
  rw [if_neg hz]

theorem processAux_clue_noEntry (gt : α → Option (ℤ × ℤ)) (ie : α → Bool)
    (down : Bool) (fuel : ℕ) (c c2 : α) (rest2 : List α) (a d : ℤ)
    (hgt : gt c = some (a, d)) (hz : clueComp down a d ≠ 0)
    (he : ie c2 = false) :
    processRowOrColAux gt ie down (fuel + 1) (c :: c2 :: rest2) =
      .error .clueWithoutEntry := by
  simp only [processRowOrColAux, hgt, he]
  rw [if_neg hz]
  simp

theorem processAux_clue_entry (gt : α → Option (ℤ × ℤ)) (ie : α → Bool)
    (down : Bool) (fuel : ℕ) (c c2 : α) (rest2 : List α) (a d : ℤ)
    (hgt : gt c = some (a, d)) (hz : clueComp down a d ≠ 0)
    (he : ie c2 = true) :
    processRowOrColAux gt ie down (fuel + 1) (c :: c2 :: rest2) =
      (match processRowOrColAux gt ie down fuel (collectCells ie rest2).2 with
        | .ok others =>
            .ok ((clueComp down a d, c2 :: (collectCells ie rest2).1) :: others)
        | .error e => .error e) := by
  simp only [processRowOrColAux, hgt, he]
  rw [if_neg hz]
  simp

theorem cluesIsolated_cons_cons (t1 t2 : Token) (rest : List Token) :
    cluesIsolated (t1 :: t2 :: rest) =
      ((match t2 with
        | .clue _ _ => t1 == Token.int 0
        | .int _ => true) && cluesIsolated (t2 :: rest)) := rfl

theorem cluesIsolated_tail (t : Token) (rest : List Token)
    (h : cluesIsolated (t :: rest) = true) : cluesIsolated rest = true := by
  cases rest with
  | nil => rfl
  | cons t2 rest2 =>
      rw [cluesIsolated_cons_cons, Bool.and_eq_true] at h
      exact h.2

theorem noTrailingClue_tail (down : Bool) (t : Token) (rest : List Token)
    (h : noTrailingClue down (t :: rest) = true) :
    noTrailingClue down rest = true := by
  cases rest with
  | nil => rfl
  | cons t2 rest2 =>
      unfold noTrailingClue at h ⊢
      rwa [List.getLast?_cons_cons] at h

theorem noTrailingClue_suffix (down : Bool) (l1 l2 : List Token)
    (hsuf : l2 <:+ l1) (h : noTrailingClue down l1 = true) :
    noTrailingClue down l2 = true := by
  cases hl2 : l2 with
  | nil => rfl
  | cons t rest =>
      obtain ⟨pre, rfl⟩ := hsuf
      unfold noTrailingClue at h ⊢
      rw [List.getLast?_append] at h
      cases hlast : l2.getLast? with
      | none =>
          rw [List.getLast?_eq_none_iff] at hlast
          rw [hlast] at hl2
          exact List.noConfusion hl2
      | some z =>
          rw [hl2] at hlast
          rw [hlast]
          rw [hl2, hlast] at h
          simpa using h

theorem entryForCheckPuzzle_eq_false (t : Token) :
    entryForCheckPuzzle t = false ↔ t = Token.int 0 := by
  cases t with
  | int n =>
      simp only [entryForCheckPuzzle, Token.int.injEq]
      constructor
      · intro h
        simpa using h
      · intro h
        simp [h]
  | clue a d => simp [entryForCheckPuzzle]

theorem collect_checkPuzzle (down : Bool) :
    ∀ (l : List Token) (prev : Token), prev ≠ Token.int 0 →
      cluesIsolated (prev :: l) = true →
      badClueLine down (collectCells entryForCheckPuzzle l).2 =
        badClueLine down l ∧
      cluesIsolated (collectCells entryForCheckPuzzle l).2 = true := by
  intro l
  induction l with
  | nil => intro prev _ _; exact ⟨rfl, rfl⟩
  | cons t rest ih =>
      intro prev hp hiso
      by_cases he : entryForCheckPuzzle t = true
      · cases htok : t with
        | clue a d =>
            exfalso
            rw [htok] at hiso
            rw [cluesIsolated_cons_cons, Bool.and_eq_true] at hiso
            have : prev = Token.int 0 := by
              have hb := hiso.1
              exact eq_of_beq hb
            exact hp this
        | int n =>
            have hn : n ≠ 0 := by
              rw [htok] at he
              simpa [entryForCheckPuzzle] using he
            rw [htok] at he hiso
            have hcoll : collectCells entryForCheckPuzzle (Token.int n :: rest) =
                (Token.int n :: (collectCells entryForCheckPuzzle rest).1,
                  (collectCells entryForCheckPuzzle rest).2) := by
              simp [collectCells, he]
            rw [hcoll]
            have hih := ih (Token.int n)
              (fun hh => hn (Token.int.inj hh))
              (cluesIsolated_tail prev _ hiso)
            refine ⟨?_, hih.2⟩
            rw [hih.1]
            rfl
      · have ht0 : t = Token.int 0 :=
          (entryForCheckPuzzle_eq_false t).mp (Bool.eq_false_iff.mpr he)
        subst ht0
        have hcoll : collectCells entryForCheckPuzzle (Token.int 0 :: rest) =
            ([], Token.int 0 :: rest) := by
          simp [collectCells, entryForCheckPuzzle]
        rw [hcoll]
        exact ⟨rfl, cluesIsolated_tail prev _ hiso⟩

theorem scanLine_checkPuzzle (down : Bool) :
    ∀ (fuel : ℕ) (l : List Token), l.length < fuel →
      cluesIsolated l = true → noTrailingClue down l = true →
      (processRowOrColAux tokenTuple entryForCheckPuzzle down fuel l ≠
        Except.error .outOfBounds) ∧
      (processRowOrColAux tokenTuple entryForCheckPuzzle down fuel l =
          Except.error .clueWithoutEntry ↔ badClueLine down l = true) := by
  intro fuel
  induction fuel with
  | zero =>
      intro l hl _ _
      exact absurd hl (Nat.not_lt_zero _)
  | succ fuel ih =>
      intro l hl hiso hnt
      cases l with
      | nil =>
          exact ⟨by simp [processRowOrColAux], by simp [processRowOrColAux, badClueLine]⟩
      | cons t rest =>
          cases htok : t with
          | int n =>
              rw [processAux_nonTuple _ _ _ _ _ _ (show tokenTuple (Token.int n) = none from rfl)]
              rw [htok] at hiso hnt
              have ihr := ih rest
                (by simp only [List.length_cons] at hl; omega)
                (cluesIsolated_tail _ _ hiso) (noTrailingClue_tail down _ _ hnt)
              exact ⟨ihr.1, ihr.2⟩
          | clue a d =>
              rw [htok] at hiso hnt
              have hgt : tokenTuple (Token.clue a d) = some (a, d) := rfl
              by_cases hz : clueComp down a d = 0
              · rw [processAux_clue_skip _ _ _ _ _ _ _ _ hgt hz]
                have ihr := ih rest
                  (by simp only [List.length_cons] at hl; omega)
                  (cluesIsolated_tail _ _ hiso) (noTrailingClue_tail down _ _ hnt)
                refine ⟨ihr.1, ?_⟩
                rw [ihr.2]
                simp [badClueLine, hz]
              · cases rest with
                | nil =>
                    exfalso
                    have hcz : clueComp down a d = 0 := by
                      simpa [noTrailingClue] using hnt
                    exact hz hcz
                | cons c2 rest2 =>
                    by_cases he : entryForCheckPuzzle c2 = true
                    · cases hc2 : c2 with
                      | clue a2 d2 =>
                          exfalso
                          rw [hc2] at hiso
                          rw [cluesIsolated_cons_cons, Bool.and_eq_true] at hiso
                          exact absurd (eq_of_beq hiso.1) (by simp)
                      | int n =>
                          rw [hc2] at he hiso hnt hl
                          have hn : n ≠ 0 := by
                            simpa [entryForCheckPuzzle] using he
                          have hcol := collect_checkPuzzle down rest2 (Token.int n)
                            (fun hh => hn (Token.int.inj hh))
                            (cluesIsolated_tail _ _ hiso)
                          have hsuf : (collectCells entryForCheckPuzzle rest2).2 <:+ rest2 :=
                            collectCells_rest_suffix _ _
                          have hntq : noTrailingClue down
                              (collectCells entryForCheckPuzzle rest2).2 = true :=
                            noTrailingClue_suffix down (Token.clue a d :: Token.int n :: rest2) _
                              (hsuf.trans ((List.suffix_cons _ _).trans (List.suffix_cons _ _)))
                              hnt
                          have hlenq : (collectCells entryForCheckPuzzle rest2).2.length < fuel := by
                            have h1 := collectCells_rest_length entryForCheckPuzzle rest2
                            simp only [List.length_cons] at hl
                            omega
                          have ihq := ih _ hlenq hcol.2 hntq
                          rw [processAux_clue_entry _ _ _ _ _ _ _ _ _ hgt hz he]
                          have hbadr : badClueLine down
                              (Token.clue a d :: Token.int n :: rest2) =
                              badClueLine down rest2 := by
                            simp [badClueLine, headEntry, entryTok, hz, hn]
                          cases hrec : processRowOrColAux tokenTuple entryForCheckPuzzle
                              down fuel (collectCells entryForCheckPuzzle rest2).2 with
                          | ok others =>
                              constructor
                              · simp
                              · rw [hbadr, ← hcol.1, ← ihq.2, hrec]
                                simp
                          | error e =>
                              have hecase : e = ScanErr.clueWithoutEntry := by
                                cases e with
                                | clueWithoutEntry => rfl
                                | outOfBounds => exact absurd hrec ihq.1
                              subst hecase
                              constructor
                              · simp
                              · rw [hbadr, ← hcol.1, ← ihq.2, hrec]
                    · have hc20 : c2 = Token.int 0 :=
                        (entryForCheckPuzzle_eq_false c2).mp (Bool.eq_false_iff.mpr he)
                      subst hc20
                      rw [processAux_clue_noEntry _ _ _ _ _ _ _ _ _ hgt hz
                        (by simp [entryForCheckPuzzle])]
                      constructor
                      · simp
                      · simp [badClueLine, headEntry, entryTok, hz]

theorem scanLine_checkPuzzle_line (down : Bool) (l : List Token)
    (hiso : cluesIsolated l = true) (hnt : noTrailingClue down l = true) :
    (processRowOrCol tokenTuple entryForCheckPuzzle down l ≠
      Except.error .outOfBounds) ∧
    (processRowOrCol tokenTuple entryForCheckPuzzle down l =
        Except.error .clueWithoutEntry ↔ badClueLine down l = true) :=
  scanLine_checkPuzzle down (l.length + 1) l (Nat.lt_succ_self _) hiso hnt

theorem scanLists_checkPuzzle (down : Bool) :
    ∀ ls : List (List Token),
      (∀ l ∈ ls, cluesIsolated l = true ∧ noTrailingClue down l = true) →
      (scanLists tokenTuple entryForCheckPuzzle down ls ≠
        Except.error .outOfBounds) ∧
      (scanLists tokenTuple entryForCheckPuzzle down ls =
          Except.error .clueWithoutEntry ↔
        ∃ l ∈ ls, badClueLine down l = true) := by
  intro ls
  induction ls with
  | nil =>
      intro _
      exact ⟨by simp [scanLists], by simp [scanLists]⟩
  | cons l ls ih =>
      intro hpre
      have hline := scanLine_checkPuzzle_line down l
        (hpre l (List.mem_cons_self l ls)).1 (hpre l (List.mem_cons_self l ls)).2
      have ihls := ih (fun l2 hl2 => hpre l2 (List.mem_cons_of_mem l hl2))
      cases hscan : processRowOrCol tokenTuple entryForCheckPuzzle down l with
      | error e =>
          have hecase : e = ScanErr.clueWithoutEntry := by
            cases e with
            | clueWithoutEntry => rfl
            | outOfBounds => exact absurd hscan hline.1
          subst hecase
          have htot : scanLists tokenTuple entryForCheckPuzzle down (l :: ls) =
              Except.error .clueWithoutEntry := by
            rw [scanLists, hscan]
            rfl
          constructor
          · rw [htot]
            simp
          · rw [htot]
            constructor
            · intro _
              exact ⟨l, List.mem_cons_self l ls, hline.2.mp hscan⟩
            · intro _
              rfl
      | ok sub =>
          cases hrest : scanLists tokenTuple entryForCheckPuzzle down ls with
          | error e =>
              have hecase : e = ScanErr.clueWithoutEntry := by
                cases e with
                | clueWithoutEntry => rfl
                | outOfBounds => exact absurd hrest ihls.1
              subst hecase
              have htot : scanLists tokenTuple entryForCheckPuzzle down (l :: ls) =
                  Except.error .clueWithoutEntry := by
                rw [scanLists, hscan, hrest]
                rfl
              constructor
              · rw [htot]
                simp
              · rw [htot]
                constructor
                · intro _
                  obtain ⟨l2, hl2, hb⟩ := ihls.2.mp hrest
                  exact ⟨l2, List.mem_cons_of_mem l hl2, hb⟩
                · intro _
                  rfl
          | ok rest =>
              have htot : scanLists tokenTuple entryForCheckPuzzle down (l :: ls) =
                  Except.ok (sub ++ rest) := by
                rw [scanLists, hscan, hrest]
                rfl
              constructor
              · rw [htot]
                simp
              · rw [htot]
                constructor
                · intro hh
                  exact absurd hh (by simp)
                · rintro ⟨l2, hl2, hb⟩
                  rcases List.mem_cons.mp hl2 with rfl | hl2m
                  · exact absurd (hline.2.mpr hb) (by simp [hscan])
                  · exact absurd (ihls.2.mpr ⟨l2, hl2m, hb⟩) (by simp [hrest])

theorem generate_checkPuzzle_iff (x : ℕ) (data : List Token)
    (hrows : ∀ l ∈ rowsFromList data x,
      cluesIsolated l = true ∧ noTrailingClue false l = true)
    (hcols : ∀ l ∈ colsFromList data x,
      cluesIsolated l = true ∧ noTrailingClue true l = true) :
    (generateConstraints tokenTuple entryForCheckPuzzle data x ≠
      Except.error .outOfBounds) ∧
    (generateConstraints tokenTuple entryForCheckPuzzle data x =
        Except.error .clueWithoutEntry ↔
      (∃ l ∈ rowsFromList data x, badClueLine false l = true) ∨
      (∃ l ∈ colsFromList data x, badClueLine true l = true)) := by
  have hrowsc := scanLists_checkPuzzle false (rowsFromList data x) hrows
  have hcolsc := scanLists_checkPuzzle true (colsFromList data x) hcols
  cases hr : scanLists tokenTuple entryForCheckPuzzle false (rowsFromList data x) with
  | error er =>
      have hercase : er = ScanErr.clueWithoutEntry := by
        cases er with
        | clueWithoutEntry => rfl
        | outOfBounds => exact absurd hr hrowsc.1
      subst hercase
      have htot : generateConstraints tokenTuple entryForCheckPuzzle data x =
          Except.error .clueWithoutEntry := by
        unfold generateConstraints
        rw [hr]
        rfl
      constructor
      · rw [htot]
        simp
      · rw [htot]
        constructor
        · intro _
          exact Or.inl (hrowsc.2.mp hr)
        · intro _
          rfl
  | ok rowRuns =>
      cases hc : scanLists tokenTuple entryForCheckPuzzle true (colsFromList data x) with
      | error ec =>
          have heccase : ec = ScanErr.clueWithoutEntry := by
            cases ec with
            | clueWithoutEntry => rfl
            | outOfBounds => exact absurd hc hcolsc.1
          subst heccase
          have htot : generateConstraints tokenTuple entryForCheckPuzzle data x =
              Except.error .clueWithoutEntry := by
            unfold generateConstraints
            rw [hr, hc]
            rfl
          constructor
          · rw [htot]
            simp
          · rw [htot]
            constructor
            · intro _
              exact Or.inr (hcolsc.2.mp hc)
            · intro _
              rfl
      | ok colRuns =>
          have htot : generateConstraints tokenTuple entryForCheckPuzzle data x =
              Except.ok (rowRuns ++ colRuns) := by
            unfold generateConstraints
            rw [hr, hc]
            rfl
          constructor
          · rw [htot]
            simp
          · rw [htot]
            constructor
            · intro hh
              exact absurd hh (by simp)
            · rintro (hbad | hbad)
              · exact absurd (hrowsc.2.mpr hbad) (by simp [hr])
              · exact absurd (hcolsc.2.mpr hbad) (by simp [hc])

/-! ## Theorems for the claims -/

/-- C10: applying unsolve twice yields the same data tokens and flags as
applying it once — unsolve is idempotent; every nonzero non-tuple token
becomes the unknown marker 1 and stays 1, clues and blacks untouched. -/
theorem unsolve_idempotent (p : Puzzle) :
    unsolvePuzzle (unsolvePuzzle p) = unsolvePuzzle p := by
  have h : ∀ t, unsolveTok (unsolveTok t) = unsolveTok t := by
    intro t
    cases t with
    | int n => by_cases hn : n = 0 <;> simp [unsolveTok, hn]
    | clue a d => rfl
  simp [unsolvePuzzle, unsolveData, List.map_map, Function.comp_def, h]

/-- C9: a successful solve never modifies the token sequence of the puzzle;
solved digits are published only as snapshots appended to the solutions
list. -/
theorem solve_preserves_data (p : Puzzle) (r : Bool × Puzzle)
    (h : solveRun p = Except.ok r) :
    r.2.data = p.data ∧ ∃ new, r.2.solutions = p.solutions ++ new := by
  unfold solveRun at h
  by_cases hs : p.isSolvedFlag
  · rw [if_pos hs] at h
    exact absurd h (by simp)
  · rw [if_neg hs] at h
    cases hm : nextSolutions p.exclusive p.data p.x with
    | error e => rw [hm] at h; exact absurd h (by simp)
    | ok sols =>
        rw [hm] at h
        rw [Except.ok.injEq] at h
        subst h
        exact ⟨rfl, sols, rfl⟩

/-- C9 witness: solving the concrete tinyPuzzle succeeds and leaves its
data unchanged. -/
theorem solve_preserves_data_witness :
    tinySolved.data = tinyPuzzle.data ∧
      ∃ new, tinySolved.solutions = tinyPuzzle.solutions ++ new :=
  solve_preserves_data tinyPuzzle (true, tinySolved) (by decide)

/-- C4 (amended): with a truthy (nonzero) seed, gen_random is a
deterministic function of its named arguments; the ambient RNG state does
not influence the output. -/
theorem genRandom_deterministic (xSize ySize : ℕ) (isSolvedArg exclusive : Bool)
    (minV maxV : ℤ) (s : ℤ) (hs : s ≠ 0) (r1 r2 : Rng) :
    genRandom xSize ySize isSolvedArg exclusive minV maxV (some s) r1 =
      genRandom xSize ySize isSolvedArg exclusive minV maxV (some s) r2 := by
  unfold genRandom
  simp [hs]

/-- C4 witness: two calls with seed 5 from different ambient states agree. -/
theorem genRandom_deterministic_witness :
    (5 : ℤ) ≠ 0 ∧
      genRandom 2 2 true true 1 9 (some 5) ⟨[]⟩ =
        genRandom 2 2 true true 1 9 (some 5) ⟨[0, 0, 0, 4, 0]⟩ :=
  ⟨by decide, genRandom_deterministic 2 2 true true 1 9 5 (by decide) ⟨[]⟩ ⟨[0, 0, 0, 4, 0]⟩⟩

/-- C4 counterexample: the seed 0 is present but falsy, so the guard
"if seed:" never reseeds and two calls with identical arguments disagree
once the ambient RNG states differ — the output is not a function of the
named arguments alone. -/
theorem genRandom_seed_zero_not_deterministic :
    genRandom 2 2 true true 1 9 (some 0) ⟨[]⟩ ≠
      genRandom 2 2 true true 1 9 (some 0) ⟨[0, 0, 0, 4, 0]⟩ := by
  decide

/-- C7: over the documented key range, the union query get_set equals the
set union of the digits of the combinations query, with the k = 1 edge case
read as the spec defines it. -/
theorem getSet_eq_union_specCombinations (s : ℤ) (n : ℕ)
    (h1 : 1 ≤ s) (h2 : s ≤ 45) (h3 : 1 ≤ n) (h4 : n ≤ 9) :
    getSet s n = ((specCombinations s n).flatten).toFinset := by
  by_cases hn : n = 1
  · subst hn
    unfold getSet specCombinations
    by_cases hs : s ≤ 9
    · have hlt : s < 10 := by omega
      simp [hlt, hs, h1]
    · have hlt : ¬ s < 10 := by omega
      simp [hlt, hs]
  · unfold getSet specCombinations
    simp [hn]

/-- C7 witness: the union and combinations queries agree at (10, 3). -/
theorem getSet_eq_union_witness :
    (1 : ℤ) ≤ 10 ∧ (10 : ℤ) ≤ 45 ∧ 1 ≤ 3 ∧ 3 ≤ 9 ∧
      getSet 10 3 = ((specCombinations 10 3).flatten).toFinset :=
  ⟨by decide, by decide, by decide, by decide,
    getSet_eq_union_specCombinations 10 3 (by decide) (by decide) (by decide) (by decide)⟩

/-- C5: check_solution accepts this board although an entry square still
holds the unknown marker 1 — the NotSolved kind (SolutionUnsolvedException)
is never reported by the code. -/
theorem checkSolution_accepts_unknown_marker :
    checkSolution ⟨2, 1, 9, true⟩ unsolvedOkBoard = Except.ok () := by decide

/-- C1: solving the unsolvable conflictPuzzle reports success and publishes
a Solution whose across run sums to 5 instead of 7; check_solution rejects
that Solution with the invalid-sum error, contradicting the claim. -/
theorem solve_success_check_fails :
    solveRun conflictPuzzle =
      Except.ok (true,
        { conflictPuzzle with solutions := [conflictSolution], isSolvedFlag := true }) ∧
    checkSolution ⟨3, 1, 9, true⟩ conflictSolution = Except.error CheckErr.invalidSum :=
  ⟨by decide, by decide⟩

/-- C3: a timeout landing after the first solution was appended makes solve
return False as claimed, but the puzzle state is not restored: its
solutions list keeps the partially appended solution, so the observable
state differs from the pre-solve snapshot. -/
theorem solve_timeout_leaks_state :
    (solveAborted tinyPuzzle 1).1 = false ∧ (solveAborted tinyPuzzle 1).2 ≠ tinyPuzzle := by
  decide

/-- C2 counterexample: with domains {1,2} and {1,2}, target 10, pass 2, the
enumeration (4 products) passes the budget and no tuple satisfies the
constraint, yet the domains stay unchanged — they do not become empty as the
claim requires. -/
theorem removeInvalidSums_no_tuple_counterexample :
    1 < (([{1, 2}, {1, 2}] : List (Finset ℤ)).map Finset.card).prod ∧
    (((([{1, 2}, {1, 2}] : List (Finset ℤ)).map Finset.card).prod : ℕ) : ℚ) <
      (17 / 10 : ℚ) ^ 2 + 500 ∧
    validTuples [{1, 2}, {1, 2}] 10 = [] ∧
    removeInvalidSums [{1, 2}, {1, 2}] 10 2 = [{1, 2}, {1, 2}] ∧
    ([{1, 2}, {1, 2}] : List (Finset ℤ)) ≠ [∅, ∅] :=
  ⟨by decide, by norm_num, by decide,
    removeInvalidSums_of_no_tuple _ _ _ (by decide), by decide⟩

/-- C2 (amended): in every pass i, for a run whose enumeration size passes
the source's budget guard (above 1 and below (17/10)^i + 500), the
sum-combination filter replaces each member cell's domain with exactly the
projection onto that position of the tuples drawn from the product of the
current domains that sum to the target and are pairwise distinct — provided
at least one such tuple exists; when no tuple satisfies the constraint the
domains are left unchanged rather than emptied. -/
theorem removeInvalidSums_characterisation (sets : List (Finset ℤ))
    (sumVal : ℤ) (i : ℕ)
    (h1 : 1 < (sets.map Finset.card).prod)
    (h2 : (((sets.map Finset.card).prod : ℕ) : ℚ) < (17 / 10 : ℚ) ^ i + 500) :
    ((∃ t, specTuple sets sumVal t) →
      ∀ j, j < sets.length → ∀ d : ℤ,
        (d ∈ (removeInvalidSums sets sumVal i).getD j ∅ ↔
          ∃ t, specTuple sets sumVal t ∧ t.getD j 0 = d)) ∧
    ((¬ ∃ t, specTuple sets sumVal t) → removeInvalidSums sets sumVal i = sets) := by
  constructor
  · rintro ⟨t0, ht0⟩ j hj d
    have hne : validTuples sets sumVal ≠ [] := by
      intro hnil
      have := (mem_validTuples sets sumVal t0).mpr ht0
      rw [hnil] at this
      exact absurd this (List.not_mem_nil t0)
    rw [removeInvalidSums_getD sets sumVal i h1 h2 hne j hj]
    rw [List.mem_toFinset, List.mem_map]
    constructor
    · rintro ⟨t, ht, rfl⟩
      exact ⟨t, (mem_validTuples sets sumVal t).mp ht, rfl⟩
    · rintro ⟨t, ht, rfl⟩
      exact ⟨t, (mem_validTuples sets sumVal t).mpr ht, rfl⟩
  · intro hno
    refine removeInvalidSums_of_no_tuple sets sumVal i ?_
    rcases hc : validTuples sets sumVal with _ | ⟨t, T⟩
    · rfl
    · exfalso
      refine hno ⟨t, (mem_validTuples sets sumVal t).mp ?_⟩
      rw [hc]
      exact List.mem_cons_self t T

/-- C2 witness: the filter at domains {1,2},{1,2}, target 3, pass 2 — the
projection law holds at position 0. -/
theorem removeInvalidSums_characterisation_witness :
    1 < (([{1, 2}, {1, 2}] : List (Finset ℤ)).map Finset.card).prod ∧
    (1 ∈ (removeInvalidSums [{1, 2}, {1, 2}] 3 2).getD 0 ∅ ↔
      ∃ t, specTuple [{1, 2}, {1, 2}] 3 t ∧ t.getD 0 0 = 1) :=
  ⟨by decide,
    (removeInvalidSums_characterisation [{1, 2}, {1, 2}] 3 2 (by decide) (by norm_num)).1
      ⟨[1, 2], rfl,
        by
          intro m hm
          simp only [List.length_cons, List.length_nil] at hm
          interval_cases m <;> decide,
        by decide, by decide⟩
      0 (by decide) 1⟩

/-- C8 (amended): for every canonical board, every run the solver's
constraint generator produces has a sum between 1 and 45 and at least one
member cell, and after the initial propagation pass every member cell's
domain is a subset of union(sum, number of cells); the upper bound of nine
cells claimed for runs does not hold in general and is dropped. -/
theorem solver_run_invariants (data : List Token) (x : ℕ)
    (hcanon : ∀ t ∈ data, canonicalTok t)
    (cs : List (ℤ × List ℕ)) (h : solverConstraints data x = .ok cs) :
    ∀ c ∈ cs, 1 ≤ c.1 ∧ c.1 ≤ 45 ∧ 1 ≤ c.2.length ∧
      ∀ i ∈ c.2, ((firstRun cs (fun _ => initCell)) i).dom ⊆
        getSet c.1 c.2.length := by
  unfold solverConstraints at h
  cases hg : generateConstraints solverTuple solverEntry data.enum x with
  | error e => rw [hg] at h; exact Except.noConfusion h
  | ok cs0 =>
      rw [hg] at h
      have heq : cs0.map (fun c => (c.1, c.2.map Prod.fst)) = cs := by
        have h2 : (Except.ok (cs0.map (fun c => (c.1, c.2.map Prod.fst))) :
            Except ScanErr _) = .ok cs := h
        exact Except.ok.inj h2
      intro c hc
      have hcm : c ∈ cs0.map (fun c => (c.1, c.2.map Prod.fst)) := by
        rw [heq]; exact hc
      rw [List.mem_map] at hcm
      obtain ⟨c0, hc0, rfl⟩ := hcm
      obtain ⟨hne, hnz, cell, hcell, a, d, hgt, hcomp⟩ :=
        generateConstraints_runs solverTuple solverEntry data.enum x cs0 hg c0 hc0
      have htok : cell.2 = Token.clue a d := by
        unfold solverTuple tokenTuple at hgt
        cases h2 : cell.2 with
        | int n => rw [h2] at hgt; exact Option.noConfusion hgt
        | clue a2 d2 =>
            rw [h2] at hgt
            have := Option.some.inj hgt
            rw [show a2 = a from congrArg Prod.fst this,
              show d2 = d from congrArg Prod.snd this]
      have hmem : cell.2 ∈ data := snd_mem_of_mem_enum data cell hcell
      have hcan := hcanon cell.2 hmem
      rw [htok] at hcan
      obtain ⟨ha0, ha45, hd0, hd45⟩ := hcan
      refine ⟨?_, ?_, ?_, ?_⟩
      · rcases hcomp with rfl | rfl <;> omega
      · rcases hcomp with rfl | rfl <;> omega
      · show 1 ≤ (c0.2.map Prod.fst).length
        rw [List.length_map]
        cases h2 : c0.2 with
        | nil => exact absurd h2 hne
        | cons _ _ => simp
      · exact firstRun_dom_mem cs (fun _ => initCell) _ hc

/-- C8 witness: the one-column board with a down clue of 3 over one cell has
one run; its bounds hold and after the initial pass the cell's domain {3}
is inside union(3, 1). -/
theorem solver_run_invariants_witness :
    (∀ t ∈ [Token.clue 0 3, Token.int 1], canonicalTok t) ∧
    (solverConstraints [Token.clue 0 3, Token.int 1] 1 = .ok [(3, [1])]) ∧
    (1 ≤ (3 : ℤ) ∧ (3 : ℤ) ≤ 45 ∧ 1 ≤ ([1] : List ℕ).length ∧
      ∀ i ∈ ([1] : List ℕ),
        ((firstRun [(3, [1])] (fun _ => initCell)) i).dom ⊆
          getSet 3 ([1] : List ℕ).length) :=
  ⟨by decide, by decide,
    solver_run_invariants [Token.clue 0 3, Token.int 1] 1 (by decide)
      [(3, [1])] (by decide) (3, [1]) (List.mem_cons_self _ _)⟩

/-- C8 counterexample: an 11-wide canonical board whose single across run
spans 10 entry cells, refuting the claimed bound of at most nine cells per
run. -/
theorem solver_run_longer_than_nine :
    (∀ t ∈ longRunBoard, canonicalTok t) ∧
    solverConstraints longRunBoard 11 =
      Except.ok [(10, [1, 2, 3, 4, 5, 6, 7, 8, 9, 10])] ∧
    ¬ (([1, 2, 3, 4, 5, 6, 7, 8, 9, 10] : List ℕ).length ≤ 9) :=
  ⟨by decide, by decide, by decide⟩

/-- C6 (amended): for a canonical board whose length is a multiple of the
width, in which every clue square is preceded in each scan direction by a
black square or the line start, and no clue aims a nonzero component at the
grid edge, check_puzzle raises ClueWithoutEntry exactly when some clue has a
nonzero across (resp. down) component that is not immediately followed by an
entry square in its row (resp. column).  Outside that restriction the claim
fails: a clue at the edge raises an IndexError instead, and a clue square
directly following another clue or an entry run is swallowed as an entry
(check_puzzle treats every nonzero token as an entry square) and accepted. -/
theorem checkPuzzle_clueWithoutEntry_iff (x : ℕ) (data : List Token)
    (hlen : data.length % x = 0)
    (hcanon : ∀ t ∈ data, canonicalTok t)
    (hrows : ∀ l ∈ rowsFromList data x,
      cluesIsolated l = true ∧ noTrailingClue false l = true)
    (hcols : ∀ l ∈ colsFromList data x,
      cluesIsolated l = true ∧ noTrailingClue true l = true) :
    checkPuzzle x data = Except.error (PuzzleErr.scan ScanErr.clueWithoutEntry) ↔
      (∃ l ∈ rowsFromList data x, badClueLine false l = true) ∨
      (∃ l ∈ colsFromList data x, badClueLine true l = true) := by
  have hgen := generate_checkPuzzle_iff x data hrows hcols
  cases hg : generateConstraints tokenTuple entryForCheckPuzzle data x with
  | error e =>
      have htot : checkPuzzle x data = Except.error (PuzzleErr.scan e) := by
        unfold checkPuzzle
        rw [if_neg (fun hh => hh hlen), hg]
        rfl
      rw [htot]
      cases e with
      | clueWithoutEntry =>
          constructor
          · intro _
            exact hgen.2.mp hg
          · intro _
            rfl
      | outOfBounds => exact absurd hg hgen.1
  | ok cs =>
      have hany : (cs.any fun c => decide (c.2.length < 1)) = false := by
        rw [List.any_eq_false]
        intro c hc
        have hne := (generateConstraints_runs tokenTuple entryForCheckPuzzle
          data x cs hg c hc).1
        simp only [decide_eq_true_eq]
        have := List.length_pos.mpr hne
        omega
      have htot : checkPuzzle x data = Except.ok () := by
        unfold checkPuzzle
        rw [if_neg (fun hh => hh hlen), hg]
        show (if (cs.any fun c => decide (c.2.length < 1)) = true
            then throw (PuzzleErr.scan ScanErr.clueWithoutEntry)
            else pure ()) = Except.ok ()
        rw [if_neg (by rw [hany]; exact Bool.false_ne_true)]
        rfl
      rw [htot]
      constructor
      · intro hh
        exact absurd hh (by simp)
      · intro hbad
        exact absurd (hgen.2.mpr hbad) (by simp [hg])

/-- C6 witness: on a 2-wide one-row canonical board whose across clue of 1
is followed by a black square, check_puzzle raises ClueWithoutEntry, and
the condition of the claim holds for that row. -/
theorem checkPuzzle_clueWithoutEntry_iff_witness :
    ([(Token.clue 1 0 : Token), .int 0].length % 2 = 0) ∧
    (∀ t ∈ [(Token.clue 1 0 : Token), .int 0], canonicalTok t) ∧
    (checkPuzzle 2 [(Token.clue 1 0 : Token), .int 0] =
        Except.error (PuzzleErr.scan ScanErr.clueWithoutEntry) ↔
      (∃ l ∈ rowsFromList [(Token.clue 1 0 : Token), .int 0] 2,
        badClueLine false l = true) ∨
      (∃ l ∈ colsFromList [(Token.clue 1 0 : Token), .int 0] 2,
        badClueLine true l = true)) :=
  ⟨by decide, by decide,
    checkPuzzle_clueWithoutEntry_iff 2 [(Token.clue 1 0 : Token), .int 0]
      (by decide) (by decide) (by decide) (by decide)⟩

/-- C6 counterexample: the one-cell board holding only the clue (0,1) — a
nonzero down component with nothing below it.  The claim requires the
ClueWithoutEntry error, but check_puzzle raises the IndexError of popping an
empty record instead. -/
theorem checkPuzzle_boundary_clue_raises_indexError :
    checkPuzzle 1 [Token.clue 0 1] = Except.error (PuzzleErr.scan ScanErr.outOfBounds) ∧
    (∃ l ∈ colsFromList [Token.clue 0 1] 1, badClueLine true l = true) ∧
    ([Token.clue 0 1].length % 1 = 0) ∧
    (∀ t ∈ [Token.clue 0 1], canonicalTok t) :=
  ⟨by decide, by decide, by decide, by decide⟩

end Pykakuro
